import Mathlib

/-!
Verification of the core pipeline of the `calendar-ai-assistant` repository:
event normalization and recurrence expansion (`app/services/importer.py`),
classification/priority (`app/services/enricher.py`), habit analysis
(`app/services/analyzer.py`), free-slot generation and recommendation
(`app/services/recommender.py`), and the content-addressed cache key
(`app/services/fs_cache.py`).

Shallow embedding conventions:
* A timezone-aware `datetime` is modelled as an integer number of minutes on
  the local wall clock (`Int`).  All datetimes handled together by the code
  share one timezone (`start_from.tzinfo` resp. the request timezone), so
  comparisons and subtraction agree with this encoding; daylight-saving
  shifts are outside the model.  `dt.date()` is the floor division by 1440
  (`Int./` is euclidean division, which is floor division for a positive
  divisor), `dt.hour` is `(t % 1440) / 60`.
* `timedelta` values are integers in minutes.
* External hash functions (`hashlib.md5`, `hashlib.sha256`) are abstracted
  as `String → String` parameters: every theorem that needs them is proved
  for an arbitrary such function, or under an explicitly discharged
  injectivity hypothesis.
* The `dateutil` recurrence rule obtained from `rrule.rrulestr(...)` is
  modelled by the list of occurrence instants it generates for the given
  `dtstart`; `rule.between(a, b, inc=False)` keeps exactly the occurrences
  strictly between `a` and `b` (both endpoints excluded), per the dateutil
  documentation and implementation.  A recurrence-rule *text* is modelled by
  its parse outcome: `none` for text that fails to parse (the
  `except`-branch of `_expand_rrule`), `some occs` for text that parses to a
  rule generating `occs`.
* Python's `list.sort(key=...)` is a stable ascending sort by key; it is
  modelled by a stable insertion sort by key, which produces the identical
  list.
-/

namespace CalendarSpec

/-- Minutes per day; `dt.date()` of a wall-clock minute count. -/
def dateOf (t : Int) : Int := t / 1440

/-- `dt.hour` of a wall-clock minute count. -/
def hourOf (t : Int) : Int := t % 1440 / 60

/-! ### Stable sort by key (model of Python `list.sort(key=...)`) -/

/-- Insert `x` after every element whose key is `≤ key x` (stable insert). -/
def insKey {α : Type} {κ : Type} [LinearOrder κ] (key : α → κ) (x : α) :
    List α → List α
  | [] => [x]
  | y :: ys => if key y ≤ key x then y :: insKey key x ys else x :: y :: ys

/-- Stable ascending sort by key, processing elements left to right. -/
def sortKey {α : Type} {κ : Type} [LinearOrder κ] (key : α → κ)
    (l : List α) : List α :=
  l.foldl (fun acc x => insKey key x acc) []

theorem insKey_perm {α κ : Type} [LinearOrder κ] (key : α → κ) (x : α)
    (l : List α) : (insKey key x l).Perm (x :: l) := by
  induction l with
  | nil => simp [insKey]
  | cons y ys ih =>
    by_cases h : key y ≤ key x
    · simp only [insKey, if_pos h]
      exact ((ih.cons y).trans (List.Perm.swap x y ys))
    · simp [insKey, if_neg h]

theorem insKey_pairwise {α κ : Type} [LinearOrder κ] (key : α → κ) (x : α)
    (l : List α) (h : l.Pairwise (fun a b => key a ≤ key b)) :
    (insKey key x l).Pairwise (fun a b => key a ≤ key b) := by
  induction l with
  | nil => simp [insKey]
  | cons y ys ih =>
    rcases List.pairwise_cons.mp h with ⟨hy, hys⟩
    by_cases hle : key y ≤ key x
    · simp only [insKey, if_pos hle]
      refine List.pairwise_cons.mpr ⟨?_, ih hys⟩
      intro z hz
      rcases List.mem_cons.mp ((insKey_perm key x ys).mem_iff.mp hz) with rfl | hz
      · exact hle
      · exact hy z hz
    · simp only [insKey, if_neg hle]
      refine List.pairwise_cons.mpr ⟨?_, h⟩
      intro z hz
      have hxy : key x ≤ key y := le_of_not_le hle
      rcases List.mem_cons.mp hz with rfl | hz
      · exact hxy
      · exact hxy.trans (hy z hz)

theorem sortKey_aux_perm {α κ : Type} [LinearOrder κ] (key : α → κ)
    (l acc : List α) :
    (l.foldl (fun acc x => insKey key x acc) acc).Perm (acc ++ l) := by
  induction l generalizing acc with
  | nil => simp
  | cons x xs ih =>
    simp only [List.foldl_cons]
    refine (ih (insKey key x acc)).trans ?_
    have h1 : (insKey key x acc ++ xs).Perm ((x :: acc) ++ xs) :=
      (insKey_perm key x acc).append_right xs
    refine h1.trans ?_
    simp only [List.cons_append]
    exact (List.perm_middle).symm

theorem sortKey_perm {α κ : Type} [LinearOrder κ] (key : α → κ)
    (l : List α) : (sortKey key l).Perm l := by
  simpa using sortKey_aux_perm key l []

theorem sortKey_pairwise {α κ : Type} [LinearOrder κ] (key : α → κ)
    (l : List α) :
    (sortKey key l).Pairwise (fun a b => key a ≤ key b) := by
  have aux : ∀ (l acc : List α),
      acc.Pairwise (fun a b => key a ≤ key b) →
      (l.foldl (fun acc x => insKey key x acc) acc).Pairwise
        (fun a b => key a ≤ key b) := by
    intro l
    induction l with
    | nil => intro acc h; simpa using h
    | cons x xs ih =>
      intro acc h
      exact ih (insKey key x acc) (insKey_pairwise key x acc h)
  exact aux l [] (by simp)

theorem sortKey_mem {α κ : Type} [LinearOrder κ] (key : α → κ)
    (l : List α) (a : α) : a ∈ sortKey key l ↔ a ∈ l :=
  (sortKey_perm key l).mem_iff

/-! ### Data model (`app/core/schemas.py`)

`Event` is the normalized event; the Python field `end` is a Lean keyword
and is rendered as `stop`.  The private bookkeeping attributes
`_from_recurring` / `_all_day` set on Python objects only feed the `stats`
dictionary and are not part of the model. -/

structure Event where
  calendar : String
  start : Int
  stop : Int
  summary : String
  description : String
  attendees : List String
  deriving Repr, DecidableEq

/-- A raw event as consumed by `_normalize_event` / `_expand_rrule`.
`start` / `stop` hold the outcome of `_parse_datetime_string` on the
source text (`none` on parse failure).  `rrule` models the recurrence
rule text: `none` when absent (or empty, which Python treats as falsy),
`some none` when the text fails to parse in `rrule.rrulestr`,
`some (some occs)` when it parses to a rule whose occurrence instants for
this event's `dtstart` are `occs`. -/
structure RawEvent where
  calendar : String
  start : Option Int
  stop : Option Int
  summary : String
  description : String
  attendees : List String
  rrule : Option (Option (List Int))
  all_day : Bool
  deriving Repr, DecidableEq

/-! ### NormalizationEngine (`app/services/importer.py`) -/

/-- `ImporterService._normalize_event`: skip events whose dates fail to
parse; auto-correct `end <= start` to `start + 1h` (60 minutes). -/
def normalize_event (r : RawEvent) : Option Event :=
  match r.start, r.stop with
  | some s, some e =>
      let e2 := if e ≤ s then s + 60 else e
      some ⟨r.calendar, s, e2, r.summary, r.description, r.attendees⟩
  | _, _ => none

/-- `ImporterService._intersects`: `end_dt > window_start and
start_dt < window_end` (end-exclusive interval intersection). -/
def intersects (start_dt stop_dt window_start window_stop : Int) : Bool :=
  window_start < stop_dt && start_dt < window_stop

/-- `ImporterService._expand_rrule`.  On a parsed rule, keep the
occurrences of `rule.between(window_start, window_end, inc=False)`
(strictly between both bounds) and give each the master's duration,
summary, description, calendar and attendees.  On parse failure
(`except`-branch), emit the master event alone iff `_intersects` holds. -/
def expand_rrule (parsed : Option (List Int)) (start_dt stop_dt : Int)
    (window_start window_stop : Int) (summary description calendar : String)
    (attendees : List String) : List Event :=
  let duration := stop_dt - start_dt
  match parsed with
  | some occs =>
      (occs.filter (fun t => window_start < t && t < window_stop)).map
        (fun t => ⟨calendar, t, t + duration, summary, description, attendees⟩)
  | none =>
      if intersects start_dt stop_dt window_start window_stop then
        [⟨calendar, start_dt, stop_dt, summary, description, attendees⟩]
      else []

/-- `ImporterService._get_event_hash`: the identity key
`f"{calendar}|{start.isoformat()}|{end.isoformat()}|{summary}"`.
`isoformat` is injective on instants and is rendered as `toString` of the
minute count. -/
def event_key (e : Event) : String :=
  e.calendar ++ "|" ++ toString e.start ++ "|" ++ toString e.stop ++ "|" ++
    e.summary

/-- `_get_event_hash` proper: the md5 hex digest of `event_key`, with the
digest abstracted as a parameter. -/
def get_event_hash (digest : String → String) (e : Event) : String :=
  digest (event_key e)

/-- Loop of `ImporterService._deduplicate_events` with its running `seen`
set (modelled as a list of already-seen digests). -/
def dedupeGo (digest : String → String) (seen : List String) :
    List Event → List Event
  | [] => []
  | e :: rest =>
      let h := get_event_hash digest e
      if h ∈ seen then dedupeGo digest seen rest
      else e :: dedupeGo digest (h :: seen) rest

/-- `ImporterService._deduplicate_events`: keep the first event per digest,
preserving relative order. -/
def deduplicate_events (digest : String → String) (events : List Event) :
    List Event :=
  dedupeGo digest [] events

/-- The raw-event branch of `_compute_import` (the `ics_content is None`
case): normalize each raw event in order, expand recurrences when requested,
filter by `window_start <= e.start <= window_end`, deduplicate, and sort by
start (stable). -/
def compute_import (digest : String → String) (raws : List RawEvent)
    (expand_recurring : Bool) (window_start window_stop : Int) : List Event :=
  let step1 : List Event := raws.foldl (fun acc r =>
    match normalize_event r with
    | none => acc
    | some n =>
      match r.rrule, expand_recurring with
      | some parsed, true =>
          acc ++ expand_rrule parsed n.start n.stop window_start window_stop
            n.summary n.description n.calendar n.attendees
      | _, _ =>
          if window_start ≤ n.start ∧ n.start ≤ window_stop then acc ++ [n]
          else acc) []
  let step2 := step1.filter
    (fun e => window_start ≤ e.start && e.start ≤ window_stop)
  sortKey (fun e => e.start) (deduplicate_events digest step2)

/-! ### Deduplication properties (claim C6) -/

theorem dedupeGo_sublist (digest : String → String) (seen : List String)
    (l : List Event) : (dedupeGo digest seen l).Sublist l := by
  induction l generalizing seen with
  | nil => simp [dedupeGo]
  | cons e rest ih =>
    by_cases h : get_event_hash digest e ∈ seen
    · simpa [dedupeGo, h] using (ih seen).cons e
    · simpa [dedupeGo, h] using (ih (get_event_hash digest e :: seen)).cons₂ e

theorem dedupeGo_first (digest : String → String) (seen : List String)
    (l : List Event) :
    ∀ e ∈ dedupeGo digest seen l,
      get_event_hash digest e ∉ seen ∧
      l.find? (fun x =>
        get_event_hash digest x == get_event_hash digest e) = some e := by
  induction l generalizing seen with
  | nil => simp [dedupeGo]
  | cons x rest ih =>
    intro e he
    by_cases h : get_event_hash digest x ∈ seen
    · simp only [dedupeGo, if_pos h] at he
      rcases ih seen e he with ⟨hnot, hfind⟩
      have hne : get_event_hash digest x ≠ get_event_hash digest e := by
        intro hcontra; exact hnot (hcontra ▸ h)
      refine ⟨hnot, ?_⟩
      rw [List.find?_cons_of_neg _ (by simpa using hne)]
      exact hfind
    · simp only [dedupeGo, if_neg h] at he
      rcases List.mem_cons.mp he with rfl | he
      · exact ⟨h, List.find?_cons_of_pos _ (by simp)⟩
      · rcases ih (get_event_hash digest x :: seen) e he with ⟨hnot, hfind⟩
        have hne : get_event_hash digest x ≠ get_event_hash digest e := by
          intro hcontra; exact hnot (by simp [hcontra])
        refine ⟨fun hmem => hnot (by simp [hmem]), ?_⟩
        rw [List.find?_cons_of_neg _ (by simpa using hne)]
        exact hfind

theorem dedupeGo_cover (digest : String → String) (seen : List String)
    (l : List Event) :
    ∀ e ∈ l, get_event_hash digest e ∉ seen →
      ∃ e' ∈ dedupeGo digest seen l,
        get_event_hash digest e' = get_event_hash digest e := by
  induction l generalizing seen with
  | nil => simp
  | cons x rest ih =>
    intro e he hnot
    by_cases h : get_event_hash digest x ∈ seen
    · rcases List.mem_cons.mp he with rfl | he
      · exact absurd h hnot
      · rcases ih seen e he hnot with ⟨e', he', hh⟩
        exact ⟨e', by simp [dedupeGo, h, he'], hh⟩
    · rcases List.mem_cons.mp he with rfl | he
      · exact ⟨e, by simp [dedupeGo, h], rfl⟩
      · by_cases hsame : get_event_hash digest e = get_event_hash digest x
        · exact ⟨x, by simp [dedupeGo, h], hsame.symm⟩
        · have : get_event_hash digest e ∉ get_event_hash digest x :: seen := by
            simp only [List.mem_cons]
            rintro (hc | hc)
            · exact hsame hc
            · exact hnot hc
          rcases ih (get_event_hash digest x :: seen) e he this with ⟨e', he', hh⟩
          exact ⟨e', by simp [dedupeGo, h, he'], hh⟩

theorem dedupeGo_idem (digest : String → String) (seen : List String)
    (l : List Event) :
    dedupeGo digest seen (dedupeGo digest seen l) = dedupeGo digest seen l := by
  induction l generalizing seen with
  | nil => simp [dedupeGo]
  | cons x rest ih =>
    by_cases h : get_event_hash digest x ∈ seen
    · simp only [dedupeGo, if_pos h]
      exact ih seen
    · simp only [dedupeGo, if_neg h]
      rw [ih (get_event_hash digest x :: seen)]

/-- C6: for every list of normalized events, deduplication keeps the first
event per identity hash (the digest of
`calendar | start_isoformat | end_isoformat | summary`) preserving relative
order (the output is a sublist of the input, and each kept event is the
first input event with its hash, and each input hash is represented), and
deduplication is idempotent — for every digest function. -/
theorem C6_deduplication (digest : String → String) (l : List Event) :
    deduplicate_events digest (deduplicate_events digest l) =
      deduplicate_events digest l ∧
    (deduplicate_events digest l).Sublist l ∧
    (∀ e ∈ deduplicate_events digest l,
      l.find? (fun x =>
        get_event_hash digest x == get_event_hash digest e) = some e) ∧
    (∀ e ∈ l, ∃ e' ∈ deduplicate_events digest l,
      get_event_hash digest e' = get_event_hash digest e) := by
  refine ⟨dedupeGo_idem digest [] l, dedupeGo_sublist digest [] l, ?_, ?_⟩
  · intro e he
    exact (dedupeGo_first digest [] l e he).2
  · intro e he
    exact dedupeGo_cover digest [] l e he (by simp)

/-- C6 witness: the theorem applied to a concrete digest and event list. -/
theorem C6_deduplication_witness :
    deduplicate_events (fun s => s)
      (deduplicate_events (fun s => s)
        [⟨"c", 0, 60, "a", "", []⟩, ⟨"c", 60, 120, "b", "", []⟩,
         ⟨"c", 0, 60, "a", "", []⟩]) =
      deduplicate_events (fun s => s)
        [⟨"c", 0, 60, "a", "", []⟩, ⟨"c", 60, 120, "b", "", []⟩,
         ⟨"c", 0, 60, "a", "", []⟩] :=
  (C6_deduplication (fun s => s)
    [⟨"c", 0, 60, "a", "", []⟩, ⟨"c", 60, 120, "b", "", []⟩,
     ⟨"c", 0, 60, "a", "", []⟩]).1

/-! ### Recurrence expansion window (claims C2, C3) -/

/-- C3 counterexample: `rule.between(ws, we, inc=False)` excludes both
endpoints, so an occurrence starting exactly at `windowStart` — which lies
in the half-open window `[windowStart, windowEnd)` claimed — is not
emitted: with `windowStart = 0`, `windowEnd = 10080` and a rule whose only
occurrence is `0`, expansion returns the empty list. -/
theorem C3_expansion_counterexample :
    ((0 : Int) ≤ 0 ∧ (0 : Int) < 10080) ∧
    expand_rrule (some [0]) 0 60 0 10080 "Standup" "" "Work" [] = [] := by
  exact ⟨⟨le_refl 0, by norm_num⟩, by decide⟩

/-- C3 amended: recurrence expansion of a parseable rule emits exactly the
occurrences whose start lies strictly inside the open window
`(windowStart, windowEnd)` (both endpoints excluded, per
`rule.between(..., inc=False)`); each emitted occurrence has the master
event's duration, summary, description and attendees. -/
theorem C3_expansion_window (occs : List Int) (start_dt stop_dt : Int)
    (ws we : Int) (su de ca : String) (atts : List String) :
    (∀ ev ∈ expand_rrule (some occs) start_dt stop_dt ws we su de ca atts,
       ev.start ∈ occs ∧ ws < ev.start ∧ ev.start < we ∧
       ev.stop - ev.start = stop_dt - start_dt ∧
       ev.summary = su ∧ ev.description = de ∧ ev.calendar = ca ∧
       ev.attendees = atts) ∧
    (∀ t ∈ occs, ws < t → t < we →
       (⟨ca, t, t + (stop_dt - start_dt), su, de, atts⟩ : Event) ∈
         expand_rrule (some occs) start_dt stop_dt ws we su de ca atts) := by
  constructor
  · intro ev hev
    simp only [expand_rrule, List.mem_map, List.mem_filter] at hev
    rcases hev with ⟨t, ⟨ht, hwin⟩, rfl⟩
    simp only [Bool.and_eq_true, decide_eq_true_eq] at hwin
    exact ⟨ht, hwin.1, hwin.2, by ring, rfl, rfl, rfl, rfl⟩
  · intro t ht h1 h2
    simp only [expand_rrule, List.mem_map, List.mem_filter]
    exact ⟨t, ⟨ht, by simp [h1, h2]⟩, rfl⟩

/-- C3 witness: the amended theorem applied at a concrete rule, showing the
interior occurrence `1440` is emitted with the master's 60-minute
duration. -/
theorem C3_expansion_window_witness :
    (⟨"Work", 1440, 1440 + (60 - 0), "Standup", "", []⟩ : Event) ∈
      expand_rrule (some [0, 1440]) 0 60 0 10080 "Standup" "" "Work" [] :=
  (C3_expansion_window [0, 1440] 0 60 0 10080 "Standup" "" "Work" []).2
    1440 (by decide) (by decide) (by decide)

/-- C2 counterexample: a raw event whose recurrence text fails to parse and
whose master interval `[-60, 60)` intersects the window `[0, 10080)` under
the end-exclusive test, yet the normalization output is empty, because
`_compute_import` afterwards filters by
`window_start <= e.start <= window_end` and the master starts before the
window. -/
theorem C2_fallback_counterexample :
    intersects (-60) 60 0 10080 = true ∧
    compute_import (fun s => s)
      [⟨"cal", some (-60), some 60, "m", "", [], some none, false⟩]
      true 0 10080 = [] := by
  exact ⟨by decide, by decide⟩

/-- C2 amended: for a raw event whose recurrence text fails to parse, with
expansion requested, the single master occurrence appears in the
normalization output iff its (corrected) interval intersects the window
under the end-exclusive test AND its start additionally passes the stage's
final start-window filter `windowStart ≤ start ≤ windowEnd`; since the
corrected end always exceeds the start, this conjunction is equivalent to
`windowStart ≤ start < windowEnd`. -/
theorem C2_master_fallback (digest : String → String) (r : RawEvent)
    (s e ws we : Int) (hs : r.start = some s) (he : r.stop = some e)
    (hr : r.rrule = some none) :
    compute_import digest [r] true ws we =
      (if intersects s (if e ≤ s then s + 60 else e) ws we = true ∧
          ws ≤ s ∧ s ≤ we then
        [⟨r.calendar, s, if e ≤ s then s + 60 else e, r.summary,
          r.description, r.attendees⟩]
      else []) ∧
    ((intersects s (if e ≤ s then s + 60 else e) ws we = true ∧
        ws ≤ s ∧ s ≤ we) ↔ ws ≤ s ∧ s < we) := by
  have hlt : s < (if e ≤ s then s + 60 else e) := by
    by_cases h : e ≤ s
    · simp [h]
    · simp [h]; omega
  have hiff : (intersects s (if e ≤ s then s + 60 else e) ws we = true ∧
      ws ≤ s ∧ s ≤ we) ↔ ws ≤ s ∧ s < we := by
    unfold intersects
    simp only [Bool.and_eq_true, decide_eq_true_eq]
    constructor
    · rintro ⟨⟨_, hb2⟩, h1, _⟩
      exact ⟨h1, hb2⟩
    · rintro ⟨h1, h2⟩
      exact ⟨⟨lt_of_le_of_lt h1 hlt, h2⟩, h1, le_of_lt h2⟩
  refine ⟨?_, hiff⟩
  by_cases hc : ws ≤ s ∧ s < we
  · rw [if_pos (hiff.mpr hc)]
    obtain ⟨hb, h1, h2⟩ := hiff.mpr hc
    simp [compute_import, normalize_event, hs, he, hr, expand_rrule, hb,
      h1, h2, deduplicate_events, dedupeGo, sortKey, insKey, List.filter]
  · rw [if_neg (fun hC => hc (hiff.mp hC))]
    by_cases hint : intersects s (if e ≤ s then s + 60 else e) ws we = true
    · have hnf : ¬ (ws ≤ s ∧ s ≤ we) := fun hw =>
        hc (hiff.mp ⟨hint, hw⟩)
      have hdec : (decide (ws ≤ s) && decide (s ≤ we)) = false := by
        rcases not_and_or.mp hnf with h | h <;> simp [h]
      simp [compute_import, normalize_event, hs, he, hr, expand_rrule, hint,
        hdec, deduplicate_events, dedupeGo, sortKey, List.filter]
    · have hb : intersects s (if e ≤ s then s + 60 else e) ws we = false := by
        simpa using hint
      simp [compute_import, normalize_event, hs, he, hr, expand_rrule, hb,
        deduplicate_events, dedupeGo, sortKey, List.filter]

/-- C2 witness: the amended theorem applied to a concrete raw event with an
unparseable rule whose master starts inside the window. -/
theorem C2_master_fallback_witness :
    compute_import (fun s => s)
      [⟨"cal", some 30, some 90, "m", "", [], some none, false⟩]
      true 0 10080 =
      (if intersects 30 (if (90 : Int) ≤ 30 then 30 + 60 else 90) 0 10080 =
            true ∧ (0 : Int) ≤ 30 ∧ (30 : Int) ≤ 10080 then
        [⟨"cal", 30, if (90 : Int) ≤ 30 then 30 + 60 else 90, "m", "", []⟩]
      else []) :=
  (C2_master_fallback (fun s => s)
    ⟨"cal", some 30, some 90, "m", "", [], some none, false⟩
    30 90 0 10080 rfl rfl rfl).1

/-! ### ICS path (`ImporterService._parse_ics`, claim C5)

A parsed `VEVENT` value (`dtstart.dt` / `dtend.dt` from the `icalendar`
library) is either a plain `date` (no hour attribute, the all-day marker)
or a `datetime`.  `_normalize_datetime` applied to a `date` yields midnight
of that day; applied to a `datetime` it only attaches the timezone, which
the minute encoding already carries. -/

inductive IcsTime where
  | date (d : Int)
  | dateTime (t : Int)
  deriving Repr, DecidableEq

/-- A `VEVENT` component after `icalendar` parsing: summary, description,
attendee names, `DTSTART` (absent components are skipped), `DTEND`, and the
`RRULE` (modelled as in `RawEvent.rrule`). -/
structure IcsComponent where
  summary : String
  description : String
  attendees : List String
  dtstart : Option IcsTime
  dtend : Option IcsTime
  rrule : Option (Option (List Int))
  deriving Repr, DecidableEq

/-- The per-`VEVENT` body of `ImporterService._parse_ics`: all-day events
are normalized to midnight–midnight — `isinstance(dtend.dt, date)` also
holds for a `datetime` end, whose midnight `datetime.combine` then takes —
with start + 1 day when `DTEND` is absent; timed events default a missing
end to start + 1 hour; recurring events are expanded when requested, other
events are kept when they intersect the window **and** their start lies in
`[window_start, window_end]`.  No `end > start` correction is applied on
this path. -/
def parse_ics_component (calendar_name : String) (c : IcsComponent)
    (expand_recurring : Bool) (window_start window_stop : Int) : List Event :=
  match c.dtstart with
  | none => []
  | some dtstart =>
    let se : Int × Int :=
      match dtstart with
      | .date d =>
          let start := d * 1440
          let stop := match c.dtend with
            | some (.date d2) => d2 * 1440
            | some (.dateTime t2) => dateOf t2 * 1440
            | none => start + 1440
          (start, stop)
      | .dateTime t =>
          let stop := match c.dtend with
            | some (.date d2) => d2 * 1440
            | some (.dateTime t2) => t2
            | none => t + 60
          (t, stop)
    match c.rrule, expand_recurring with
    | some parsed, true =>
        expand_rrule parsed se.1 se.2 window_start window_stop
          c.summary c.description calendar_name c.attendees
    | _, _ =>
        if intersects se.1 se.2 window_start window_stop = true ∧
            window_start ≤ se.1 ∧ se.1 ≤ window_stop then
          [⟨calendar_name, se.1, se.2, c.summary, c.description,
            c.attendees⟩]
        else []

/-- `ImporterService._parse_ics` over the parsed component list of the
calendar (the try/except only truncates on a parse error, which is outside
the model of well-formed input). -/
def parse_ics (calendar_name : String) (components : List IcsComponent)
    (expand_recurring : Bool) (window_start window_stop : Int) :
    List Event :=
  components.flatMap
    (fun c => parse_ics_component calendar_name c expand_recurring
      window_start window_stop)

/-- C5 counterexample: a timed `VEVENT` with `DTEND = DTSTART` passes
through `_parse_ics` unchanged — the normalization output contains an
event with `end = start`, with no auto-correction to start + 1 hour. -/
theorem C5_invariant_counterexample :
    parse_ics "Cal"
      [⟨"m", "", [], some (IcsTime.dateTime 600),
        some (IcsTime.dateTime 600), none⟩] true 0 10080 =
      [⟨"Cal", 600, 600, "m", "", []⟩] ∧
    ¬ ((600 : Int) < 600) := by
  exact ⟨by decide, by decide⟩

/-- C5 amended: every normalized event produced by the **raw-event** path
(`_normalize_event`) satisfies `end > start`, and when the parsed end is
not after the parsed start the end is auto-corrected to start plus one
hour; the ICS path (`_parse_ics`) applies no such correction and can emit
events with `end ≤ start`. -/
theorem C5_end_after_start (r : RawEvent) (n : Event) (s e : Int)
    (hn : normalize_event r = some n)
    (hs : r.start = some s) (he : r.stop = some e) :
    n.start < n.stop ∧
    (e ≤ s → n = ⟨r.calendar, s, s + 60, r.summary, r.description,
      r.attendees⟩) := by
  simp only [normalize_event, hs, he, Option.some.injEq] at hn
  subst hn
  constructor
  · by_cases h : e ≤ s
    · simp [h]
    · simp [h]; omega
  · intro h
    simp [h]

/-- C5 witness: the amended theorem applied to a concrete raw event whose
parsed end equals its parsed start; the output end is start + 60 min. -/
theorem C5_end_after_start_witness :
    (⟨"c", 100, 160, "x", "", []⟩ : Event).start <
      (⟨"c", 100, 160, "x", "", []⟩ : Event).stop ∧
    ((100 : Int) ≤ 100 → (⟨"c", 100, 160, "x", "", []⟩ : Event) =
      ⟨"c", 100, 100 + 60, "x", "", []⟩) :=
  C5_end_after_start ⟨"c", some 100, some 100, "x", "", [], none, false⟩
    ⟨"c", 100, 160, "x", "", []⟩ 100 100 (by decide) rfl rfl

/-! ### ClassificationEngine priority (`app/services/enricher.py`, claim C7) -/

/-- Does the first list start with the second? (helper for substring test) -/
def charsStartWith : List Char → List Char → Bool
  | [], _ => true
  | _ :: _, [] => false
  | a :: as, b :: bs => a == b && charsStartWith as bs

/-- Is `needle` a contiguous run inside the haystack?  Models Python's
`needle in haystack` on strings. -/
def charsContain (needle : List Char) : List Char → Bool
  | [] => charsStartWith needle []
  | b :: bs => charsStartWith needle (b :: bs) || charsContain needle bs

/-- Python `needle in hay` for strings. -/
def textContains (hay needle : String) : Bool :=
  charsContain needle.data hay.data

/-- Python `str.lower` restricted to the alphabets the keyword tables use
(ASCII and Russian Cyrillic); other characters are untouched. -/
def pyLowerChar (c : Char) : Char :=
  if 'A' ≤ c ∧ c ≤ 'Z' then Char.ofNat (c.toNat + 32)
  else if c = 'Ё' then 'ё'
  else if 'А' ≤ c ∧ c ≤ 'Я' then Char.ofNat (c.toNat + 32)
  else c

/-- Python `str.lower` (character-wise). -/
def pyLower (s : String) : String := ⟨s.data.map pyLowerChar⟩

/-- `PRIORITY_KEYWORDS["high"]` from `app/core/config.py`. -/
def priority_high_keywords : List String :=
  ["срочно", "важно", "критично", "дедлайн", "обязательно",
   "urgent", "important", "critical", "deadline", "must",
   "asap", "emergency", "priority"]

inductive PriorityType where
  | regular
  | high
  deriving Repr, DecidableEq

/-- The analysis text of `_determine_priority` (and `_classify_with_rules`):
`f"{event.summary} {event.description}".lower()`. -/
def eventText (e : Event) : String :=
  pyLower (e.summary ++ " " ++ e.description)

/-- `EnricherService._determine_priority`: urgency keyword in the
lower-cased `summary + " " + description`, more than five attendees, or an
early/late integer start hour with no mention of `"рутин"`/`"routine"`. -/
def determine_priority (e : Event) : PriorityType :=
  if priority_high_keywords.any
      (fun kw => textContains (eventText e) (pyLower kw))
  then .high
  else if 5 < e.attendees.length then .high
  else if hourOf e.start < 8 ∨ 20 < hourOf e.start then
    if textContains (eventText e) "рутин" = false ∧
        textContains (eventText e) "routine" = false
    then .high
    else .regular
  else .regular

/-- C7 counterexample: an event titled `"рутина"` starting at 07:00 with no
attendees and no urgency keyword is classified `regular`, because the code
also treats the Russian `"рутин"` as a routine marker — while the claim
(`text does not mention "routine"`) would make it `high`. -/
theorem C7_priority_counterexample :
    determine_priority ⟨"c", 420, 480, "рутина", "", []⟩ =
      PriorityType.regular ∧
    hourOf 420 < 8 ∧
    textContains (eventText ⟨"c", 420, 480, "рутина", "", []⟩)
      "routine" = false ∧
    priority_high_keywords.any
      (fun kw => textContains (eventText ⟨"c", 420, 480, "рутина", "", []⟩)
        (pyLower kw)) = false ∧
    (⟨"c", 420, 480, "рутина", "", []⟩ : Event).attendees.length ≤ 5 := by
  exact ⟨by decide, by decide, by decide, by decide, by decide⟩

/-- C7 amended: the computed priority is `high` exactly when the
lower-cased summary+description contains an urgency keyword, or the
attendee count exceeds 5, or the integer start hour is before 8 or after
20 and the text mentions neither `"routine"` nor `"рутин"`; otherwise
`regular`. -/
theorem C7_priority (e : Event) :
    determine_priority e = PriorityType.high ↔
      ((∃ kw ∈ priority_high_keywords,
          textContains (eventText e) (pyLower kw) = true) ∨
        5 < e.attendees.length ∨
        ((hourOf e.start < 8 ∨ 20 < hourOf e.start) ∧
          textContains (eventText e) "рутин" = false ∧
          textContains (eventText e) "routine" = false)) := by
  unfold determine_priority
  split_ifs with h1 h2 h3 h4
  · exact iff_of_true rfl (Or.inl (by simpa [List.any_eq_true] using h1))
  · exact iff_of_true rfl (Or.inr (Or.inl h2))
  · exact iff_of_true rfl (Or.inr (Or.inr ⟨h3, h4.1, h4.2⟩))
  · refine iff_of_false (by decide) ?_
    rintro (h | h | ⟨hh, hr1, hr2⟩)
    · exact h1 (by simpa [List.any_eq_true] using h)
    · exact h2 h
    · exact h4 ⟨hr1, hr2⟩
  · refine iff_of_false (by decide) ?_
    rintro (h | h | ⟨hh, hr1, hr2⟩)
    · exact h1 (by simpa [List.any_eq_true] using h)
    · exact h2 h
    · exact h3 hh

/-! ### HabitAnalyzer (`app/services/analyzer.py`, claim C8) -/

/-- `EventType` from `app/core/schemas.py` (the enum values are the Russian
category strings). -/
inductive EventType where
  | work
  | study
  | health
  | household
  | family
  | creative
  | travel
  | leisure
  | routine
  | other
  deriving Repr, DecidableEq

/-- An enriched event as consumed by the analyzer and recommender (the
attribute bundle `enrich_attrs` is not read by the verified paths). -/
structure EnrichedEvent extends Event where
  event_type : EventType
  priority_type : PriorityType
  deriving Repr, DecidableEq

/-- `event.start.hour + event.start.minute / 60` of a wall-clock minute
count: `hour * 60 + minute = t % 1440`, so the fractional hour is exactly
`(t % 1440) / 60` as a rational. -/
def hourFrac (t : Int) : ℚ := ((t % 1440 : Int) : ℚ) / 60

/-- The fractional start hours of a list of events. -/
def startHours (events : List EnrichedEvent) : List ℚ :=
  events.map (fun e => hourFrac e.start)

/-- The fractional end hours of a list of events. -/
def endHours (events : List EnrichedEvent) : List ℚ :=
  events.map (fun e => hourFrac e.stop)

/-- `statistics.median`: middle element of the sorted list (mean of the two
middle elements for even length).  Unreachable on `[]` in the code. -/
def medianQ (l : List ℚ) : ℚ :=
  let s := sortKey id l
  if l.length % 2 = 1 then s.getD (l.length / 2) 0
  else (s.getD (l.length / 2 - 1) 0 + s.getD (l.length / 2) 0) / 2

/-- Python `f"{n:02d}"` for the non-negative values produced here. -/
def pad2 (n : Int) : String :=
  if 0 ≤ n ∧ n < 10 then "0" ++ toString n else toString n

/-- `f"{int(h):02d}:{int((h % 1) * 60):02d}"` for a non-negative fractional
hour (`int` truncation coincides with floor there). -/
def formatHour (q : ℚ) : String :=
  pad2 ⌊q⌋ ++ ":" ++ pad2 ⌊(q - (⌊q⌋ : ℚ)) * 60⌋

/-- The analyzer's `TimeWindow` (`start`/`end` as "HH:MM" strings);
`confidence` is exact rational arithmetic in place of Python floats. -/
structure TimeWindowQ where
  start : String
  stop : String
  confidence : ℚ
  sample_size : Nat
  deriving Repr, DecidableEq

/-- `settings.default_time_windows` from `app/core/config.py` (total over
the enum, so the `("09:00", "17:00")` fallback of `.get` is never taken). -/
def default_time_windows : EventType → String × String
  | .work => ("09:00", "18:00")
  | .study => ("19:00", "21:00")
  | .health => ("07:00", "09:00")
  | .household => ("10:00", "12:00")
  | .family => ("18:00", "22:00")
  | .creative => ("20:00", "22:00")
  | .travel => ("08:00", "20:00")
  | .leisure => ("19:00", "23:00")
  | .routine => ("07:00", "08:00")
  | .other => ("09:00", "21:00")

/-- The events of one category, in input order (the `defaultdict` grouping
of `_analyze_time_windows` preserves encounter order). -/
def typeEvents (events : List EnrichedEvent) (etype : EventType) :
    List EnrichedEvent :=
  events.filter (fun e => e.event_type == etype)

/-- `AnalyzerService._calculate_time_window`, with `statistics.stdev`
abstracted as `stdevFn` (its value feeds only the confidence formula). -/
def calculate_time_window (stdevFn : List ℚ → ℚ)
    (events : List EnrichedEvent) : TimeWindowQ :=
  if events.length = 0 then ⟨"09:00", "17:00", 0, 0⟩
  else
    let start_hours := startHours events
    let end_hours := endHours events
    if 3 ≤ start_hours.length then
      let ss := sortKey id start_hours
      let es := sortKey id end_hours
      let window_start := ss.getD (start_hours.length / 4) 0
      let window_end0 := es.getD (3 * end_hours.length / 4) 0
      let window_end :=
        if window_end0 - window_start < 1 then window_start + 1
        else window_end0
      ⟨formatHour window_start, formatHour window_end,
        max 0 (min 1 (2 - (stdevFn ss + stdevFn es) / 2)), events.length⟩
    else
      ⟨formatHour (medianQ start_hours), formatHour (medianQ end_hours),
        3 / 10, events.length⟩

/-- `AnalyzerService._analyze_time_windows` restricted to one category:
quantile window when the category has at least `min_sample_size` events,
otherwise the built-in default with confidence 0 and the true sample
size. -/
def analyze_time_windows (stdevFn : List ℚ → ℚ)
    (events : List EnrichedEvent) (min_sample_size : Nat)
    (etype : EventType) : TimeWindowQ :=
  if min_sample_size ≤ (typeEvents events etype).length then
    calculate_time_window stdevFn (typeEvents events etype)
  else
    ⟨(default_time_windows etype).1, (default_time_windows etype).2, 0,
      (typeEvents events etype).length⟩

/-- C8: with at least `minSampleSize` (and at least 3) events in a
category, the analyzer's window is the sorted start-hour value at index
`len/4` and the sorted end-hour value at index `3*len/4` (independent
sorts), widened to at least one hour, with confidence
`clamp(2 − (stdev(starts) + stdev(ends))/2, 0, 1)` — stated with the
stdev of the *original* series, as the claim does, which agrees with the
code's stdev of the sorted series for any permutation-invariant stdev;
with fewer than `minSampleSize` events the window is the per-category
default with confidence 0 and the true sample size. -/
theorem C8_time_windows (stdevFn : List ℚ → ℚ)
    (hperm : ∀ l l' : List ℚ, l.Perm l' → stdevFn l = stdevFn l')
    (events : List EnrichedEvent) (minSample : Nat) (etype : EventType) :
    (minSample ≤ (typeEvents events etype).length →
      3 ≤ (typeEvents events etype).length →
      analyze_time_windows stdevFn events minSample etype =
        { start := formatHour
            ((sortKey id (startHours (typeEvents events etype))).getD
              ((typeEvents events etype).length / 4) 0),
          stop := formatHour
            (if (sortKey id (endHours (typeEvents events etype))).getD
                  (3 * (typeEvents events etype).length / 4) 0 -
                (sortKey id (startHours (typeEvents events etype))).getD
                  ((typeEvents events etype).length / 4) 0 < 1 then
              (sortKey id (startHours (typeEvents events etype))).getD
                ((typeEvents events etype).length / 4) 0 + 1
            else
              (sortKey id (endHours (typeEvents events etype))).getD
                (3 * (typeEvents events etype).length / 4) 0),
          confidence := max 0 (min 1 (2 -
            (stdevFn (startHours (typeEvents events etype)) +
              stdevFn (endHours (typeEvents events etype))) / 2)),
          sample_size := (typeEvents events etype).length }) ∧
    ((typeEvents events etype).length < minSample →
      analyze_time_windows stdevFn events minSample etype =
        { start := (default_time_windows etype).1,
          stop := (default_time_windows etype).2,
          confidence := 0,
          sample_size := (typeEvents events etype).length }) := by
  constructor
  · intro h1 h2
    have hlen : (startHours (typeEvents events etype)).length =
        (typeEvents events etype).length := by
      simp [startHours]
    have hlen2 : (endHours (typeEvents events etype)).length =
        (typeEvents events etype).length := by
      simp [endHours]
    have hne : ¬ ((typeEvents events etype).length = 0) := by omega
    have hs : stdevFn (sortKey id (startHours (typeEvents events etype))) =
        stdevFn (startHours (typeEvents events etype)) :=
      hperm _ _ (sortKey_perm id _)
    have he : stdevFn (sortKey id (endHours (typeEvents events etype))) =
        stdevFn (endHours (typeEvents events etype)) :=
      hperm _ _ (sortKey_perm id _)
    simp only [analyze_time_windows, if_pos h1, calculate_time_window,
      if_neg hne, hlen, hlen2, if_pos h2, hs, he]
  · intro h1
    simp only [analyze_time_windows, if_neg (by omega : ¬ minSample ≤
      (typeEvents events etype).length)]

/-- C8 witness: three work events 09:00–10:00 on consecutive days with the
zero stdev function; the quantile window is `09:00`–`10:00` with
confidence clamped to 1 and sample size 3, as the theorem's first branch
states. -/
theorem C8_time_windows_witness :
    analyze_time_windows (fun _ => 0)
      [⟨⟨"c", 540, 600, "a", "", []⟩, .work, .regular⟩,
       ⟨⟨"c", 1980, 2040, "b", "", []⟩, .work, .regular⟩,
       ⟨⟨"c", 3420, 3480, "d", "", []⟩, .work, .regular⟩] 3 .work =
      { start := formatHour
          ((sortKey id (startHours (typeEvents
            [⟨⟨"c", 540, 600, "a", "", []⟩, .work, .regular⟩,
             ⟨⟨"c", 1980, 2040, "b", "", []⟩, .work, .regular⟩,
             ⟨⟨"c", 3420, 3480, "d", "", []⟩, .work, .regular⟩] .work))).getD
            ((typeEvents
              [⟨⟨"c", 540, 600, "a", "", []⟩, .work, .regular⟩,
               ⟨⟨"c", 1980, 2040, "b", "", []⟩, .work, .regular⟩,
               ⟨⟨"c", 3420, 3480, "d", "", []⟩, .work, .regular⟩]
              .work).length / 4) 0),
        stop := formatHour
          (if (sortKey id (endHours (typeEvents
                [⟨⟨"c", 540, 600, "a", "", []⟩, .work, .regular⟩,
                 ⟨⟨"c", 1980, 2040, "b", "", []⟩, .work, .regular⟩,
                 ⟨⟨"c", 3420, 3480, "d", "", []⟩, .work, .regular⟩]
                .work))).getD
                (3 * (typeEvents
                  [⟨⟨"c", 540, 600, "a", "", []⟩, .work, .regular⟩,
                   ⟨⟨"c", 1980, 2040, "b", "", []⟩, .work, .regular⟩,
                   ⟨⟨"c", 3420, 3480, "d", "", []⟩, .work, .regular⟩]
                  .work).length / 4) 0 -
              (sortKey id (startHours (typeEvents
                [⟨⟨"c", 540, 600, "a", "", []⟩, .work, .regular⟩,
                 ⟨⟨"c", 1980, 2040, "b", "", []⟩, .work, .regular⟩,
                 ⟨⟨"c", 3420, 3480, "d", "", []⟩, .work, .regular⟩]
                .work))).getD
                ((typeEvents
                  [⟨⟨"c", 540, 600, "a", "", []⟩, .work, .regular⟩,
                   ⟨⟨"c", 1980, 2040, "b", "", []⟩, .work, .regular⟩,
                   ⟨⟨"c", 3420, 3480, "d", "", []⟩, .work, .regular⟩]
                  .work).length / 4) 0 < 1 then
            (sortKey id (startHours (typeEvents
              [⟨⟨"c", 540, 600, "a", "", []⟩, .work, .regular⟩,
               ⟨⟨"c", 1980, 2040, "b", "", []⟩, .work, .regular⟩,
               ⟨⟨"c", 3420, 3480, "d", "", []⟩, .work, .regular⟩]
              .work))).getD
              ((typeEvents
                [⟨⟨"c", 540, 600, "a", "", []⟩, .work, .regular⟩,
                 ⟨⟨"c", 1980, 2040, "b", "", []⟩, .work, .regular⟩,
                 ⟨⟨"c", 3420, 3480, "d", "", []⟩, .work, .regular⟩]
                .work).length / 4) 0 + 1
          else
            (sortKey id (endHours (typeEvents
              [⟨⟨"c", 540, 600, "a", "", []⟩, .work, .regular⟩,
               ⟨⟨"c", 1980, 2040, "b", "", []⟩, .work, .regular⟩,
               ⟨⟨"c", 3420, 3480, "d", "", []⟩, .work, .regular⟩]
              .work))).getD
              (3 * (typeEvents
                [⟨⟨"c", 540, 600, "a", "", []⟩, .work, .regular⟩,
                 ⟨⟨"c", 1980, 2040, "b", "", []⟩, .work, .regular⟩,
                 ⟨⟨"c", 3420, 3480, "d", "", []⟩, .work, .regular⟩]
                .work).length / 4) 0),
        confidence := max 0 (min 1 (2 -
          ((fun _ => (0 : ℚ))
              (startHours (typeEvents
                [⟨⟨"c", 540, 600, "a", "", []⟩, .work, .regular⟩,
                 ⟨⟨"c", 1980, 2040, "b", "", []⟩, .work, .regular⟩,
                 ⟨⟨"c", 3420, 3480, "d", "", []⟩, .work, .regular⟩]
                .work)) +
            (fun _ => (0 : ℚ))
              (endHours (typeEvents
                [⟨⟨"c", 540, 600, "a", "", []⟩, .work, .regular⟩,
                 ⟨⟨"c", 1980, 2040, "b", "", []⟩, .work, .regular⟩,
                 ⟨⟨"c", 3420, 3480, "d", "", []⟩, .work, .regular⟩]
                .work))) / 2)),
        sample_size := (typeEvents
          [⟨⟨"c", 540, 600, "a", "", []⟩, .work, .regular⟩,
           ⟨⟨"c", 1980, 2040, "b", "", []⟩, .work, .regular⟩,
           ⟨⟨"c", 3420, 3480, "d", "", []⟩, .work, .regular⟩]
          .work).length } :=
  (C8_time_windows (fun _ => 0) (fun _ _ _ => rfl)
    [⟨⟨"c", 540, 600, "a", "", []⟩, .work, .regular⟩,
     ⟨⟨"c", 1980, 2040, "b", "", []⟩, .work, .regular⟩,
     ⟨⟨"c", 3420, 3480, "d", "", []⟩, .work, .regular⟩] 3 .work).1
    (by decide) (by decide)

/-! ### SlotRecommender (`app/services/recommender.py`, claims C1, C9, C10)

Configuration values are taken from `app/core/config.py`
(`work_day_start = 7`, `work_day_end = 23`, `event_buffer_before =
event_buffer_after = 10`, weights 0.3/0.3/0.2/0.2); the embedding keeps
them as parameters.  `day0_weekday` is `datetime.weekday()` of wall-clock
day 0, fixing the calendar alignment of the minute encoding. -/

structure RecommenderConfig where
  work_day_start : Int
  work_day_end : Int
  buffer_before : Int
  buffer_after : Int
  w_time_pref : ℚ
  w_no_conflicts : ℚ
  w_working_hours : ℚ
  w_proximity : ℚ
  day0_weekday : Int
  deriving Repr, DecidableEq

/-- `datetime.weekday()` (Monday = 0) under the minute encoding. -/
def weekdayOf (cfg : RecommenderConfig) (t : Int) : Int :=
  (dateOf t + cfg.day0_weekday) % 7

/-- The inflated busy intervals of `_generate_free_slots` (lines 111–116):
one interval per event whose start is at or after `start_from`, widened by
the buffers. -/
def inflateBusy (cfg : RecommenderConfig) (events : List EnrichedEvent)
    (start_from : Int) : List (Int × Int) :=
  (events.filter (fun e => start_from ≤ e.start)).map
    (fun e => (e.start - cfg.buffer_before, e.stop + cfg.buffer_after))

/-- The merge loop of `_generate_free_slots` (lines 120–125), carrying the
open last interval: extend it while the next start is `≤` its end, else
emit it. -/
def mergeLoop (cur : Int × Int) : List (Int × Int) → List (Int × Int)
  | [] => [cur]
  | (s, e) :: rest =>
      if s ≤ cur.2 then mergeLoop (cur.1, max cur.2 e) rest
      else cur :: mergeLoop (s, e) rest

/-- Merge a (sorted) interval list into the `merged_busy` list. -/
def mergeBusy : List (Int × Int) → List (Int × Int)
  | [] => []
  | iv :: rest => mergeLoop iv rest

/-- The sorted, merged, inflated busy set used by `_generate_free_slots`. -/
def mergedBusy (cfg : RecommenderConfig) (events : List EnrichedEvent)
    (start_from : Int) : List (Int × Int) :=
  mergeBusy (sortKey (fun iv => iv.1) (inflateBusy cfg events start_from))

/-- The inner `for busy_start, busy_end in merged_busy` walk of one day
(lines 154–165): returns the emitted slots and the final `current_time`. -/
def walkDay (d dur : Int) : List (Int × Int) → Int → List (Int × Int) × Int
  | [], c => ([], c)
  | iv :: rest, c =>
      if dateOf iv.1 ≤ d ∧ d ≤ dateOf iv.2 then
        ((if c < iv.1 ∧ dur ≤ iv.1 - c then [(c, min (c + dur) iv.1)]
          else []) ++
          (walkDay d dur rest (max c iv.2)).1,
         (walkDay d dur rest (max c iv.2)).2)
      else walkDay d dur rest c

/-- The `day_start` of one loop iteration (lines 130–144): the working-day
start, clamped on day 0 to `start_from` + 30 minutes. -/
def dayStartOf (cfg : RecommenderConfig) (start_from : Int) (day : Nat) :
    Int :=
  if day = 0 then
    max (start_from + 30)
      ((dateOf start_from + day) * 1440 + cfg.work_day_start * 60)
  else (dateOf start_from + day) * 1440 + cfg.work_day_start * 60

/-- The `day_end` of one loop iteration (lines 146–150). -/
def dayEndOf (cfg : RecommenderConfig) (start_from : Int) (day : Nat) :
    Int :=
  (dateOf start_from + day) * 1440 + cfg.work_day_end * 60

/-- One iteration of the `for day in range(days_ahead)` loop (lines
127–173): walk the merged busy set from `day_start`, then emit the
trailing slot when enough room remains before `day_end`. -/
def daySlots (cfg : RecommenderConfig) (merged : List (Int × Int))
    (start_from : Int) (day : Nat) (dur : Int) : List (Int × Int) :=
  (walkDay (dateOf start_from + day) dur merged
      (dayStartOf cfg start_from day)).1 ++
    (if (walkDay (dateOf start_from + day) dur merged
          (dayStartOf cfg start_from day)).2 < dayEndOf cfg start_from day ∧
        dur ≤ dayEndOf cfg start_from day -
          (walkDay (dateOf start_from + day) dur merged
            (dayStartOf cfg start_from day)).2 then
      [((walkDay (dateOf start_from + day) dur merged
          (dayStartOf cfg start_from day)).2,
        (walkDay (dateOf start_from + day) dur merged
          (dayStartOf cfg start_from day)).2 + dur)]
    else [])

/-- `RecommenderService._generate_free_slots`. -/
def generate_free_slots (cfg : RecommenderConfig)
    (events : List EnrichedEvent) (start_from : Int) (days_ahead : Nat)
    (duration_min : Int) : List (Int × Int) :=
  (List.range days_ahead).flatMap
    (fun day => daySlots cfg (mergedBusy cfg events start_from) start_from
      day duration_min)

/-- Two half-open slots/intervals overlap. -/
def olap (a b : Int × Int) : Prop := a.1 < b.2 ∧ b.1 < a.2

instance (a b : Int × Int) : Decidable (olap a b) := by
  unfold olap; infer_instance

theorem mergeLoop_spec (l : List (Int × Int)) (cur : Int × Int)
    (hcur : cur.1 ≤ cur.2) (hl : ∀ x ∈ l, x.1 ≤ x.2)
    (hsorted : (cur :: l).Pairwise (fun a b => a.1 ≤ b.1)) :
    (∀ y ∈ mergeLoop cur l, cur.1 ≤ y.1 ∧ y.1 ≤ y.2) ∧
    (mergeLoop cur l).Pairwise (fun a b => a.2 < b.1) := by
  induction l generalizing cur with
  | nil =>
    refine ⟨?_, by simp [mergeLoop]⟩
    intro y hy
    simp only [mergeLoop, List.mem_singleton] at hy
    subst hy
    exact ⟨le_refl _, hcur⟩
  | cons p rest ih =>
    obtain ⟨s, e⟩ := p
    rcases List.pairwise_cons.mp hsorted with ⟨hcurle, hrest_sorted⟩
    have hrest : ∀ x ∈ rest, x.1 ≤ x.2 :=
      fun x hx => hl x (List.mem_cons_of_mem _ hx)
    by_cases hcase : s ≤ cur.2
    · have h1 : (cur.1, max cur.2 e).1 ≤ (cur.1, max cur.2 e).2 := by
        simp only []
        exact le_trans hcur (le_max_left _ _)
      have h3 : ((cur.1, max cur.2 e) :: rest).Pairwise
          (fun a b => a.1 ≤ b.1) := by
        refine List.pairwise_cons.mpr
          ⟨?_, (List.pairwise_cons.mp hrest_sorted).2⟩
        intro x hx
        exact hcurle x (List.mem_cons_of_mem _ hx)
      have IH := ih (cur.1, max cur.2 e) h1 hrest h3
      simpa only [mergeLoop, if_pos hcase] using IH
    · have hse : (s, e).1 ≤ (s, e).2 := hl (s, e) (List.mem_cons_self _ _)
      have IH := ih (s, e) hse hrest hrest_sorted
      have hcs : cur.2 < s := lt_of_not_ge hcase
      simp only [mergeLoop, if_neg hcase]
      constructor
      · intro y hy
        rcases List.mem_cons.mp hy with rfl | hy
        · exact ⟨le_refl _, hcur⟩
        · rcases IH.1 y hy with ⟨ha, hb⟩
          exact ⟨le_trans (hcurle (s, e) (List.mem_cons_self _ _)) ha, hb⟩
      · refine List.pairwise_cons.mpr ⟨?_, IH.2⟩
        intro y hy
        exact lt_of_lt_of_le hcs (IH.1 y hy).1

theorem mergedBusy_spec (cfg : RecommenderConfig)
    (events : List EnrichedEvent) (start_from : Int)
    (hev : ∀ e ∈ events, e.start ≤ e.stop)
    (hb1 : 0 ≤ cfg.buffer_before) (hb2 : 0 ≤ cfg.buffer_after) :
    (∀ y ∈ mergedBusy cfg events start_from, y.1 ≤ y.2) ∧
    (mergedBusy cfg events start_from).Pairwise (fun a b => a.2 < b.1) := by
  have hinfl : ∀ x ∈ inflateBusy cfg events start_from, x.1 ≤ x.2 := by
    intro x hx
    simp only [inflateBusy, List.mem_map, List.mem_filter] at hx
    obtain ⟨e, ⟨he, _⟩, rfl⟩ := hx
    have := hev e he
    simp only []
    omega
  have hsorted := sortKey_pairwise (fun iv : Int × Int => iv.1)
    (inflateBusy cfg events start_from)
  have hmem : ∀ x ∈ sortKey (fun iv : Int × Int => iv.1)
      (inflateBusy cfg events start_from), x.1 ≤ x.2 :=
    fun x hx => hinfl x ((sortKey_mem _ _ x).mp hx)
  unfold mergedBusy mergeBusy
  rcases hcase : sortKey (fun iv : Int × Int => iv.1)
      (inflateBusy cfg events start_from) with _ | ⟨iv, rest⟩
  · simp
  · rw [hcase] at hsorted hmem
    have h1 : iv.1 ≤ iv.2 := hmem iv (List.mem_cons_self _ _)
    have h2 : ∀ x ∈ rest, x.1 ≤ x.2 :=
      fun x hx => hmem x (List.mem_cons_of_mem _ hx)
    have := mergeLoop_spec rest iv h1 h2 hsorted
    exact ⟨fun y hy => (this.1 y hy).2, this.2⟩

theorem dateOf_le_imp {t d : Int} (h : dateOf t ≤ d) : t < (d + 1) * 1440 := by
  unfold dateOf at h; omega

theorem lt_dateOf_imp {t d : Int} (h : d < dateOf t) : (d + 1) * 1440 ≤ t := by
  unfold dateOf at h; omega

theorem dateOf_lt_imp {t d : Int} (h : dateOf t < d) : t < d * 1440 := by
  unfold dateOf at h; omega

theorem walkDay_spec (d dur : Int) (hdur : 0 ≤ dur) :
    ∀ (merged : List (Int × Int)), (∀ m ∈ merged, m.1 ≤ m.2) →
    merged.Pairwise (fun a b => a.2 < b.1) → ∀ c : Int,
    c ≤ (walkDay d dur merged c).2 ∧
    (∀ sl ∈ (walkDay d dur merged c).1,
      c ≤ sl.1 ∧ sl.1 ≤ sl.2 ∧ sl.2 ≤ (walkDay d dur merged c).2 ∧
      sl.2 < (d + 1) * 1440) ∧
    (walkDay d dur merged c).1.Pairwise (fun a b => a.2 ≤ b.1) ∧
    (∀ m ∈ merged, dateOf m.1 ≤ d → d ≤ dateOf m.2 →
      m.2 ≤ (walkDay d dur merged c).2 ∧
      ∀ sl ∈ (walkDay d dur merged c).1, ¬ olap sl m) := by
  intro merged
  induction merged with
  | nil =>
    intro _ _ c
    simp [walkDay]
  | cons m0 rest ih =>
    intro hprop hpw c
    have hm0 : m0.1 ≤ m0.2 := hprop m0 (List.mem_cons_self _ _)
    have hprop' : ∀ m ∈ rest, m.1 ≤ m.2 :=
      fun m hm => hprop m (List.mem_cons_of_mem _ hm)
    rcases List.pairwise_cons.mp hpw with ⟨hgap, hpw'⟩
    by_cases hdate : dateOf m0.1 ≤ d ∧ d ≤ dateOf m0.2
    · obtain ⟨IH1, IH2, IH3, IH4⟩ := ih hprop' hpw' (max c m0.2)
      have hbound : m0.1 < (d + 1) * 1440 := dateOf_le_imp hdate.1
      have hcW : c ≤ (walkDay d dur rest (max c m0.2)).2 :=
        le_trans (le_max_left _ _) IH1
      have hbeW : m0.2 ≤ (walkDay d dur rest (max c m0.2)).2 :=
        le_trans (le_max_right _ _) IH1
      by_cases hemit : c < m0.1 ∧ dur ≤ m0.1 - c
      · simp only [walkDay, if_pos hdate, if_pos hemit]
        refine ⟨hcW, ?_, ?_, ?_⟩
        · intro sl hsl
          rcases List.mem_append.mp hsl with hsl | hsl
          · have hsl' : sl = (c, min (c + dur) m0.1) :=
              List.mem_singleton.mp hsl
            subst hsl'
            refine ⟨le_refl _, ?_, ?_, ?_⟩
            · have h1 : c ≤ c + dur := by omega
              exact le_min h1 (le_of_lt hemit.1)
            · have h1 : min (c + dur) m0.1 ≤ m0.1 := min_le_right _ _
              have : min (c + dur) m0.1 ≤ m0.2 := le_trans h1 hm0
              exact le_trans this hbeW
            · have h1 : min (c + dur) m0.1 ≤ m0.1 := min_le_right _ _
              exact lt_of_le_of_lt h1 hbound
          · obtain ⟨ha, hb, hc2, hd2⟩ := IH2 sl hsl
            exact ⟨le_trans (le_max_left _ _) ha, hb, hc2, hd2⟩
        · refine List.pairwise_append.mpr ⟨by simp, IH3, ?_⟩
          intro x hx y hy
          have hx' : x = (c, min (c + dur) m0.1) := List.mem_singleton.mp hx
          subst hx'
          have h1 : min (c + dur) m0.1 ≤ m0.1 := min_le_right _ _
          have h2 : max c m0.2 ≤ y.1 := (IH2 y hy).1
          show min (c + dur) m0.1 ≤ y.1
          have h3 : m0.2 ≤ max c m0.2 := le_max_right _ _
          omega
        · intro m hm h1 h2
          rcases List.mem_cons.mp hm with rfl | hm
          · refine ⟨hbeW, ?_⟩
            intro sl hsl hol
            obtain ⟨ho1, ho2⟩ := hol
            rcases List.mem_append.mp hsl with hsl | hsl
            · have hsl' : sl = (c, min (c + dur) m.1) :=
                List.mem_singleton.mp hsl
              subst hsl'
              have ho2' : m.1 < min (c + dur) m.1 := ho2
              have : min (c + dur) m.1 ≤ m.1 := min_le_right _ _
              omega
            · have hy : max c m.2 ≤ sl.1 := (IH2 sl hsl).1
              have hy2 : m.2 ≤ max c m.2 := le_max_right _ _
              have ho1' : sl.1 < m.2 := ho1
              omega
          · obtain ⟨hm2, hsl4⟩ := IH4 m hm h1 h2
            refine ⟨hm2, ?_⟩
            intro sl hsl
            rcases List.mem_append.mp hsl with hsl | hsl
            · have hsl' : sl = (c, min (c + dur) m0.1) :=
                List.mem_singleton.mp hsl
              subst hsl'
              intro hol
              obtain ⟨ho1, ho2⟩ := hol
              have hmgap : m0.2 < m.1 := hgap m hm
              have ho2' : m.1 < min (c + dur) m0.1 := ho2
              have : min (c + dur) m0.1 ≤ m0.1 := min_le_right _ _
              omega
            · exact hsl4 sl hsl
      · simp only [walkDay, if_pos hdate, if_neg hemit, List.nil_append]
        refine ⟨hcW, ?_, IH3, ?_⟩
        · intro sl hsl
          obtain ⟨ha, hb, hc2, hd2⟩ := IH2 sl hsl
          exact ⟨le_trans (le_max_left _ _) ha, hb, hc2, hd2⟩
        · intro m hm h1 h2
          rcases List.mem_cons.mp hm with rfl | hm
          · refine ⟨hbeW, ?_⟩
            intro sl hsl hol
            obtain ⟨ho1, ho2⟩ := hol
            have hy : max c m.2 ≤ sl.1 := (IH2 sl hsl).1
            have hy2 : m.2 ≤ max c m.2 := le_max_right _ _
            have ho1' : sl.1 < m.2 := ho1
            omega
          · exact IH4 m hm h1 h2
    · obtain ⟨IH1, IH2, IH3, IH4⟩ := ih hprop' hpw' c
      simp only [walkDay, if_neg hdate]
      refine ⟨IH1, IH2, IH3, ?_⟩
      intro m hm h1 h2
      rcases List.mem_cons.mp hm with rfl | hm
      · exact absurd ⟨h1, h2⟩ hdate
      · exact IH4 m hm h1 h2

theorem dayStartOf_ge (cfg : RecommenderConfig) (start_from : Int)
    (day : Nat) (hws : 0 ≤ cfg.work_day_start) :
    (dateOf start_from + day) * 1440 ≤ dayStartOf cfg start_from day := by
  unfold dayStartOf
  by_cases h : day = 0
  · simp only [if_pos h]
    refine le_trans ?_ (le_max_right _ _)
    omega
  · simp only [if_neg h]
    omega

theorem dayEndOf_le (cfg : RecommenderConfig) (start_from : Int) (day : Nat)
    (hwe : cfg.work_day_end ≤ 24) :
    dayEndOf cfg start_from day ≤ (dateOf start_from + day + 1) * 1440 := by
  unfold dayEndOf
  omega

theorem daySlots_spec (cfg : RecommenderConfig) (merged : List (Int × Int))
    (start_from : Int) (day : Nat) (dur : Int)
    (hdur : 0 ≤ dur) (hws : 0 ≤ cfg.work_day_start)
    (hwe : cfg.work_day_end ≤ 24)
    (hprop : ∀ m ∈ merged, m.1 ≤ m.2)
    (hpw : merged.Pairwise (fun a b => a.2 < b.1)) :
    (∀ sl ∈ daySlots cfg merged start_from day dur,
      (dateOf start_from + day) * 1440 ≤ sl.1 ∧ sl.1 ≤ sl.2 ∧
      sl.2 ≤ (dateOf start_from + day + 1) * 1440) ∧
    (daySlots cfg merged start_from day dur).Pairwise
      (fun a b => a.2 ≤ b.1) ∧
    (∀ sl ∈ daySlots cfg merged start_from day dur, ∀ m ∈ merged,
      ¬ olap sl m) := by
  obtain ⟨W1, W2, W3, W4⟩ := walkDay_spec (dateOf start_from + day) dur hdur
    merged hprop hpw (dayStartOf cfg start_from day)
  have hds := dayStartOf_ge cfg start_from day hws
  have hde := dayEndOf_le cfg start_from day hwe
  unfold daySlots
  refine ⟨?_, ?_, ?_⟩
  · intro sl hsl
    rcases List.mem_append.mp hsl with hsl | hsl
    · obtain ⟨ha, hb, _, hd2⟩ := W2 sl hsl
      exact ⟨le_trans hds ha, hb, le_of_lt hd2⟩
    · by_cases hc : (walkDay (dateOf start_from + day) dur merged
          (dayStartOf cfg start_from day)).2 < dayEndOf cfg start_from day ∧
          dur ≤ dayEndOf cfg start_from day -
            (walkDay (dateOf start_from + day) dur merged
              (dayStartOf cfg start_from day)).2
      · rw [if_pos hc] at hsl
        have hsl' := List.mem_singleton.mp hsl
        subst hsl'
        refine ⟨le_trans hds W1, by omega, by omega⟩
      · rw [if_neg hc] at hsl
        simp at hsl
  · refine List.pairwise_append.mpr ⟨W3, ?_, ?_⟩
    · by_cases hc : (walkDay (dateOf start_from + day) dur merged
          (dayStartOf cfg start_from day)).2 < dayEndOf cfg start_from day ∧
          dur ≤ dayEndOf cfg start_from day -
            (walkDay (dateOf start_from + day) dur merged
              (dayStartOf cfg start_from day)).2
      · rw [if_pos hc]; simp
      · rw [if_neg hc]; simp
    · intro x hx y hy
      by_cases hc : (walkDay (dateOf start_from + day) dur merged
          (dayStartOf cfg start_from day)).2 < dayEndOf cfg start_from day ∧
          dur ≤ dayEndOf cfg start_from day -
            (walkDay (dateOf start_from + day) dur merged
              (dayStartOf cfg start_from day)).2
      · rw [if_pos hc] at hy
        have hy' := List.mem_singleton.mp hy
        subst hy'
        exact (W2 x hx).2.2.1
      · rw [if_neg hc] at hy
        simp at hy
  · intro sl hsl m hm
    rcases List.mem_append.mp hsl with hsl | hsl
    · by_cases hdm : dateOf m.1 ≤ dateOf start_from + day ∧
          dateOf start_from + day ≤ dateOf m.2
      · exact (W4 m hm hdm.1 hdm.2).2 sl hsl
      · obtain ⟨ha, hb, _, hd2⟩ := W2 sl hsl
        rcases not_and_or.mp hdm with hdm | hdm
        · have h1 := lt_dateOf_imp (lt_of_not_ge hdm)
          intro hol
          obtain ⟨_, ho2⟩ := hol
          omega
        · have h1 := dateOf_lt_imp (lt_of_not_ge hdm)
          intro hol
          obtain ⟨ho1, _⟩ := hol
          omega
    · by_cases hc : (walkDay (dateOf start_from + day) dur merged
          (dayStartOf cfg start_from day)).2 < dayEndOf cfg start_from day ∧
          dur ≤ dayEndOf cfg start_from day -
            (walkDay (dateOf start_from + day) dur merged
              (dayStartOf cfg start_from day)).2
      swap
      · rw [if_neg hc] at hsl
        simp at hsl
      rw [if_pos hc] at hsl
      have hsl' := List.mem_singleton.mp hsl
      subst hsl'
      by_cases hdm : dateOf m.1 ≤ dateOf start_from + day ∧
          dateOf start_from + day ≤ dateOf m.2
      · have hm2 := (W4 m hm hdm.1 hdm.2).1
        intro hol
        obtain ⟨ho1, _⟩ := hol
        have ho1' : (walkDay (dateOf start_from + day) dur merged
            (dayStartOf cfg start_from day)).2 < m.2 := ho1
        omega
      · rcases not_and_or.mp hdm with hdm | hdm
        · have h1 := lt_dateOf_imp (lt_of_not_ge hdm)
          intro hol
          obtain ⟨_, ho2⟩ := hol
          have ho2' : m.1 < (walkDay (dateOf start_from + day) dur merged
              (dayStartOf cfg start_from day)).2 + dur := ho2
          omega
        · have h1 := dateOf_lt_imp (lt_of_not_ge hdm)
          intro hol
          obtain ⟨ho1, _⟩ := hol
          have ho1' : (walkDay (dateOf start_from + day) dur merged
              (dayStartOf cfg start_from day)).2 < m.2 := ho1
          omega

theorem mergeLoop_covers (l : List (Int × Int)) (cur : Int × Int)
    (hsorted : (cur :: l).Pairwise (fun a b => a.1 ≤ b.1)) :
    ∀ x ∈ cur :: l, ∃ y ∈ mergeLoop cur l, y.1 ≤ x.1 ∧ x.2 ≤ y.2 := by
  induction l generalizing cur with
  | nil =>
    intro x hx
    rcases List.mem_singleton.mp hx with rfl
    exact ⟨x, by simp [mergeLoop], le_refl _, le_refl _⟩
  | cons p rest ih =>
    obtain ⟨s, e⟩ := p
    intro x hx
    rcases List.pairwise_cons.mp hsorted with ⟨hcurle, hrest_sorted⟩
    by_cases hcase : s ≤ cur.2
    · have h3 : ((cur.1, max cur.2 e) :: rest).Pairwise
          (fun a b => a.1 ≤ b.1) := by
        refine List.pairwise_cons.mpr
          ⟨?_, (List.pairwise_cons.mp hrest_sorted).2⟩
        intro z hz
        exact hcurle z (List.mem_cons_of_mem _ hz)
      have IH := ih (cur.1, max cur.2 e) h3
      simp only [mergeLoop, if_pos hcase]
      rcases List.mem_cons.mp hx with hxe | hx
      · obtain ⟨y, hy, hy1, hy2⟩ := IH (cur.1, max cur.2 e)
          (List.mem_cons_self _ _)
        refine ⟨y, hy, ?_, ?_⟩
        · rw [hxe]; exact hy1
        · rw [hxe]; exact le_trans (le_max_left _ _) hy2
      · rcases List.mem_cons.mp hx with hxe | hx
        · obtain ⟨y, hy, hy1, hy2⟩ := IH (cur.1, max cur.2 e)
            (List.mem_cons_self _ _)
          refine ⟨y, hy, ?_, ?_⟩
          · rw [hxe]
            exact le_trans hy1 (hcurle (s, e) (List.mem_cons_self _ _))
          · rw [hxe]
            exact le_trans (le_max_right cur.2 e) hy2
        · exact IH x (List.mem_cons_of_mem _ hx)
    · have IH := ih (s, e) hrest_sorted
      simp only [mergeLoop, if_neg hcase]
      rcases List.mem_cons.mp hx with hxe | hx
      · refine ⟨cur, List.mem_cons_self _ _, ?_, ?_⟩
        · rw [hxe]
        · rw [hxe]
      · obtain ⟨y, hy, hy1, hy2⟩ := IH x hx
        exact ⟨y, List.mem_cons_of_mem _ hy, hy1, hy2⟩

theorem mergedBusy_covers (cfg : RecommenderConfig)
    (events : List EnrichedEvent) (start_from : Int) :
    ∀ x ∈ inflateBusy cfg events start_from,
      ∃ y ∈ mergedBusy cfg events start_from, y.1 ≤ x.1 ∧ x.2 ≤ y.2 := by
  intro x hx
  have hx' : x ∈ sortKey (fun iv : Int × Int => iv.1)
      (inflateBusy cfg events start_from) := (sortKey_mem _ _ x).mpr hx
  have hsorted := sortKey_pairwise (fun iv : Int × Int => iv.1)
    (inflateBusy cfg events start_from)
  unfold mergedBusy mergeBusy
  rcases hcase : sortKey (fun iv : Int × Int => iv.1)
      (inflateBusy cfg events start_from) with _ | ⟨iv, rest⟩
  · rw [hcase] at hx'
    simp at hx'
  · rw [hcase] at hx' hsorted
    exact mergeLoop_covers rest iv hsorted x hx'

theorem pairwise_flatMap {α β : Type} {R : β → β → Prop} {f : α → List β}
    (l : List α) (h1 : ∀ a ∈ l, (f a).Pairwise R)
    (h2 : l.Pairwise (fun a b => ∀ x ∈ f a, ∀ y ∈ f b, R x y)) :
    (l.flatMap f).Pairwise R := by
  induction l with
  | nil => simp
  | cons a l ih =>
    simp only [List.flatMap_cons]
    refine List.pairwise_append.mpr
      ⟨h1 a (List.mem_cons_self _ _),
        ih (fun b hb => h1 b (List.mem_cons_of_mem _ hb))
          (List.pairwise_cons.mp h2).2, ?_⟩
    intro x hx y hy
    rcases List.mem_flatMap.mp hy with ⟨b, hb, hyb⟩
    exact (List.pairwise_cons.mp h2).1 b hb x hx y hyb

/-- C1: for every list of enriched events (whose intervals are proper, as
the `NormalizedEvent` invariant guarantees), query time, search-day count
and non-negative requested duration, under the configuration constraints
(non-negative buffers, working day inside `[0, 24]`): the returned free
slots are pairwise non-overlapping, and no returned slot overlaps any
interval of the merged inflated busy set. -/
theorem C1_free_slots (cfg : RecommenderConfig)
    (events : List EnrichedEvent) (start_from : Int) (days_ahead : Nat)
    (dur : Int)
    (hev : ∀ e ∈ events, e.start ≤ e.stop)
    (hb1 : 0 ≤ cfg.buffer_before) (hb2 : 0 ≤ cfg.buffer_after)
    (hdur : 0 ≤ dur) (hws : 0 ≤ cfg.work_day_start)
    (hwe : cfg.work_day_end ≤ 24) :
    (generate_free_slots cfg events start_from days_ahead dur).Pairwise
      (fun a b => ¬ olap a b) ∧
    (∀ sl ∈ generate_free_slots cfg events start_from days_ahead dur,
      ∀ m ∈ mergedBusy cfg events start_from, ¬ olap sl m) ∧
    (∀ sl ∈ generate_free_slots cfg events start_from days_ahead dur,
      ∀ e ∈ events, start_from ≤ e.start →
        ¬ olap sl (e.start - cfg.buffer_before,
          e.stop + cfg.buffer_after)) := by
  obtain ⟨hprop, hpw⟩ := mergedBusy_spec cfg events start_from hev hb1 hb2
  have hmergedDisj : ∀ sl ∈ generate_free_slots cfg events start_from
      days_ahead dur, ∀ m ∈ mergedBusy cfg events start_from,
      ¬ olap sl m := by
    intro sl hsl m hm
    rcases List.mem_flatMap.mp hsl with ⟨day, _, hsl'⟩
    exact (daySlots_spec cfg (mergedBusy cfg events start_from) start_from
      day dur hdur hws hwe hprop hpw).2.2 sl hsl' m hm
  refine ⟨?_, hmergedDisj, ?_⟩
  swap
  · intro sl hsl e he hestart
    have hx : (e.start - cfg.buffer_before, e.stop + cfg.buffer_after) ∈
        inflateBusy cfg events start_from := by
      simp only [inflateBusy, List.mem_map, List.mem_filter]
      exact ⟨e, ⟨he, by simpa using hestart⟩, rfl⟩
    obtain ⟨y, hy, hy1, hy2⟩ := mergedBusy_covers cfg events start_from _ hx
    intro hol
    obtain ⟨ho1, ho2⟩ := hol
    have ho1' : sl.1 < e.stop + cfg.buffer_after := ho1
    have ho2' : e.start - cfg.buffer_before < sl.2 := ho2
    have hy1' : y.1 ≤ e.start - cfg.buffer_before := hy1
    have hy2' : e.stop + cfg.buffer_after ≤ y.2 := hy2
    exact hmergedDisj sl hsl y hy ⟨by omega, by omega⟩
  · unfold generate_free_slots
    apply pairwise_flatMap
    · intro day _
      obtain ⟨_, D2, _⟩ := daySlots_spec cfg
        (mergedBusy cfg events start_from) start_from day dur hdur hws hwe
        hprop hpw
      exact D2.imp (fun h hol => absurd hol.2 (not_lt.mpr h))
    · refine (List.pairwise_lt_range days_ahead).imp ?_
      intro d1 d2 hlt x hx y hy
      obtain ⟨D1a, _, _⟩ := daySlots_spec cfg
        (mergedBusy cfg events start_from) start_from d1 dur hdur hws hwe
        hprop hpw
      obtain ⟨D1b, _, _⟩ := daySlots_spec cfg
        (mergedBusy cfg events start_from) start_from d2 dur hdur hws hwe
        hprop hpw
      obtain ⟨_, _, hx2⟩ := D1a x hx
      obtain ⟨hy1, _, _⟩ := D1b y hy
      intro hol
      obtain ⟨_, ho2⟩ := hol
      have hc : (d1 : Int) + 1 ≤ (d2 : Int) := by exact_mod_cast hlt
      omega

/-- C1 witness: the theorem applied to the repository's configuration
values (`work_day_start = 7`, `work_day_end = 23`, 10-minute buffers) with
one concrete event. -/
theorem C1_free_slots_witness :
    (generate_free_slots ⟨7, 23, 10, 10, 3/10, 3/10, 1/5, 1/5, 0⟩
      [⟨⟨"c", 600, 660, "m", "", []⟩, .work, .regular⟩] 0 1 60).Pairwise
      (fun a b => ¬ olap a b) ∧
    (∀ sl ∈ generate_free_slots ⟨7, 23, 10, 10, 3/10, 3/10, 1/5, 1/5, 0⟩
      [⟨⟨"c", 600, 660, "m", "", []⟩, .work, .regular⟩] 0 1 60,
      ∀ m ∈ mergedBusy ⟨7, 23, 10, 10, 3/10, 3/10, 1/5, 1/5, 0⟩
        [⟨⟨"c", 600, 660, "m", "", []⟩, .work, .regular⟩] 0,
        ¬ olap sl m) ∧
    (∀ sl ∈ generate_free_slots ⟨7, 23, 10, 10, 3/10, 3/10, 1/5, 1/5, 0⟩
      [⟨⟨"c", 600, 660, "m", "", []⟩, .work, .regular⟩] 0 1 60,
      ∀ e ∈ [(⟨⟨"c", 600, 660, "m", "", []⟩, .work, .regular⟩ :
          EnrichedEvent)], (0 : Int) ≤ e.start →
        ¬ olap sl (e.start -
          (⟨7, 23, 10, 10, 3/10, 3/10, 1/5, 1/5, 0⟩ :
            RecommenderConfig).buffer_before,
          e.stop + (⟨7, 23, 10, 10, 3/10, 3/10, 1/5, 1/5, 0⟩ :
            RecommenderConfig).buffer_after)) :=
  C1_free_slots ⟨7, 23, 10, 10, 3/10, 3/10, 1/5, 1/5, 0⟩
    [⟨⟨"c", 600, 660, "m", "", []⟩, .work, .regular⟩] 0 1 60
    (by decide) (by decide) (by decide) (by decide) (by decide) (by decide)

/-- C10: busy-interval construction only considers events starting at or
after the query time — filtering out the events already in progress
changes nothing — and, concretely, for an event running 09:30–12:00 at
query time 10:00 the generator returns the slot 10:30–11:30, which
overlaps the remaining duration of that in-progress event. -/
theorem C10_in_progress_events :
    (∀ (cfg : RecommenderConfig) (events : List EnrichedEvent) (t : Int),
      inflateBusy cfg events t =
        inflateBusy cfg (events.filter (fun e => decide (t ≤ e.start))) t) ∧
    generate_free_slots ⟨7, 23, 10, 10, 3/10, 3/10, 1/5, 1/5, 0⟩
      [⟨⟨"c", 570, 720, "m", "", []⟩, .work, .regular⟩] 600 1 60 =
      [(630, 690)] ∧
    olap (630, 690) (600, 720) ∧
    (570 : Int) < 600 ∧ (600 : Int) < 720 := by
  refine ⟨?_, by decide, by decide, by decide, by decide⟩
  intro cfg events t
  unfold inflateBusy
  rw [List.filter_filter]
  simp

/-! ### Scoring and recommendation (`RecommenderService.recommend_slot`)

Scores are exact rationals in place of Python floats; all decimal weights
of the configuration are exactly representable.  `int(...)` applied to the
"HH"/"MM" pieces of an analyzer-produced window is modelled by `pyInt`
(malformed window strings would raise in Python and are outside the
model). -/

/-- `int(s)` on the decimal strings produced by the pipeline. -/
def pyInt (s : String) : Int := (s.toInt?).getD 0

structure UserQuery where
  summary : String
  duration_min : Int
  event_type : Option EventType
  priority_type : PriorityType
  preferred_time : Option String
  deriving Repr, DecidableEq

structure SlotRecommendationQ where
  slot : Int × Int
  score : ℚ
  rationale : List String
  deriving Repr, DecidableEq

/-- `RecommendResponse`: recommendation, alternatives, conflict notes and
the shared `search_stats["slots_found"]` entry. -/
structure RecommendResponseQ where
  recommendation : SlotRecommendationQ
  alternatives : List SlotRecommendationQ
  conflicts_found : List String
  slots_found : Nat
  deriving Repr, DecidableEq

/-- `RecommenderService._score_slot`: weighted sum of time-preference,
no-conflict, working-hours and proximity factors with the flat
Monday/Friday adjustments, clamped to `[0, 1]`, together with the
rationale strings in emission order. -/
def score_slot (cfg : RecommenderConfig) (slot : Int × Int)
    (query : UserQuery) (habits : Option (EventType → Option TimeWindowQ))
    (events : List EnrichedEvent) (now : Int) : ℚ × List String :=
  let _ := events
  let tp : ℚ × List String :=
    match habits, query.event_type with
    | some dw, some et =>
      match dw et with
      | some w =>
          let slot_hour := hourFrac slot.1
          let wstart : ℚ := pyInt ((w.start.splitOn ":").getD 0 "") +
            (pyInt ((w.start.splitOn ":").getD 1 "") : ℚ) / 60
          let wend : ℚ := pyInt ((w.stop.splitOn ":").getD 0 "") +
            (pyInt ((w.stop.splitOn ":").getD 1 "") : ℚ) / 60
          if wstart ≤ slot_hour ∧ slot_hour ≤ wend then
            (1, ["Попадает в предпочитаемое окно " ++ w.start ++ "-" ++
              w.stop])
          else
            let distance := if slot_hour < wstart then wstart - slot_hour
              else slot_hour - wend
            let s := max 0 (1 - distance / 12)
            (s, if s < 1/2 then
              ["Вне предпочитаемого окна " ++ w.start ++ "-" ++ w.stop]
            else [])
      | none => (0, [])
    | _, _ =>
      let hour := hourOf slot.1
      match query.preferred_time with
      | some pt =>
          if pt = "morning" ∧ 6 ≤ hour ∧ hour < 12 then
            (1, ["Утреннее время как запрошено"])
          else if pt = "afternoon" ∧ 12 ≤ hour ∧ hour < 17 then
            (1, ["Дневное время как запрошено"])
          else if pt = "evening" ∧ 17 ≤ hour ∧ hour < 22 then
            (1, ["Вечернее время как запрошено"])
          else (1/2, [])
      | none => (1/2, [])
  let hour := hourOf slot.1
  let wh : ℚ × List String :=
    if cfg.work_day_start ≤ hour ∧ hour < cfg.work_day_end then
      (1, [if weekdayOf cfg slot.1 < 5 then "В рабочие часы буднего дня"
        else "В дневное время выходного"])
    else (3/10, ["Вне стандартных рабочих часов"])
  let hours_until : ℚ := ((slot.1 - now : Int) : ℚ) / 60
  let prox : ℚ × List String :=
    match query.priority_type with
    | .high =>
        if hours_until ≤ 4 then
          (1, ["Ближайшее доступное время (высокий приоритет)"])
        else if hours_until ≤ 24 then (8/10, ["В течение суток"])
        else if hours_until ≤ 48 then (6/10, ["В течение двух дней"])
        else (max 0 (1 - hours_until / 168), [])
    | .regular =>
        if 24 ≤ hours_until ∧ hours_until ≤ 72 then
          (1, ["Оптимальное время планирования"])
        else if hours_until < 24 then (7/10, ["Довольно скоро"])
        else (max (3/10) (1 - (hours_until - 72) / 168), [])
  let score1 := tp.1 * cfg.w_time_pref + 1 * cfg.w_no_conflicts +
    wh.1 * cfg.w_working_hours + prox.1 * cfg.w_proximity
  let monday := weekdayOf cfg slot.1 = 0 ∧ hour < 10
  let friday := weekdayOf cfg slot.1 = 4 ∧ 16 ≤ hour
  let score2 := if monday then score1 + 1/20 else score1
  let score3 := if friday then score2 - 1/10 else score2
  (max 0 (min 1 score3),
    tp.2 ++ ["Нет конфликтов с существующими событиями"] ++ wh.2 ++
      prox.2 ++
      (if monday then ["Начало недели - хорошо для планирования"]
        else []) ++
      (if friday then ["Пятница вечер - не лучшее время"] else []))

/-- `RecommenderService._check_conflicts`: events within 30 minutes
before/after the slot, plus the day-load note. -/
def check_conflicts (slot : Int × Int) (events : List EnrichedEvent) :
    List String :=
  (events.flatMap (fun ev =>
    if 0 < slot.1 - ev.stop ∧ slot.1 - ev.stop < 30 then
      ["Всего " ++ toString (slot.1 - ev.stop) ++ " минут после '" ++
        ev.summary ++ "'"]
    else if 0 < ev.start - slot.2 ∧ ev.start - slot.2 < 30 then
      ["Всего " ++ toString (ev.start - slot.2) ++ " минут до '" ++
        ev.summary ++ "'"]
    else [])) ++
  (if 5 ≤ (events.filter
      (fun ev => dateOf ev.start == dateOf slot.1)).length then
    ["День уже загружен (" ++ toString (events.filter
      (fun ev => dateOf ev.start == dateOf slot.1)).length ++ " событий)"]
  else [])

/-- `RecommenderService.recommend_slot`: on an empty free-slot list the
degenerate zero-duration recommendation at `now`; otherwise the slots are
scored, stably sorted by descending score, and the best plus up to
`max_alternatives` alternatives are returned.  `none` marks the
`scored_slots[0]` access on an empty list, which cannot occur. -/
def recommend_slot (cfg : RecommenderConfig) (events : List EnrichedEvent)
    (habits : Option (EventType → Option TimeWindowQ)) (query : UserQuery)
    (now : Int) (search_days : Nat) (max_alternatives : Nat) :
    Option RecommendResponseQ :=
  let free := generate_free_slots cfg events now search_days
    query.duration_min
  if free.isEmpty then
    some ⟨⟨(now, now), 0, ["Не найдено свободных слотов"]⟩, [],
      ["Календарь полностью занят"], 0⟩
  else
    match sortKey (fun x => -x.2.1)
        (free.map (fun sl => (sl, score_slot cfg sl query habits events
          now))) with
    | [] => none
    | best :: rest =>
        some ⟨⟨best.1, best.2.1, best.2.2⟩,
          (rest.take max_alternatives).map (fun x => ⟨x.1, x.2.1, x.2.2⟩),
          check_conflicts best.1 events,
          free.length⟩

/-- C9: whenever free-slot generation yields no slot, `recommend_slot`
returns (rather than raising) the degenerate recommendation whose slot is
`now`–`now` with score 0, the explanatory rationale, the top-level
conflict message, and zero found slots. -/
theorem C9_no_capacity (cfg : RecommenderConfig)
    (events : List EnrichedEvent)
    (habits : Option (EventType → Option TimeWindowQ)) (query : UserQuery)
    (now : Int) (search_days : Nat) (max_alternatives : Nat)
    (h : generate_free_slots cfg events now search_days
      query.duration_min = []) :
    recommend_slot cfg events habits query now search_days
      max_alternatives =
      some ⟨⟨(now, now), 0, ["Не найдено свободных слотов"]⟩, [],
        ["Календарь полностью занят"], 0⟩ := by
  simp [recommend_slot, h]

/-- C9 witness: a fully booked working day (one event covering 07:00–23:00
with the 10-minute buffers) leaves no free slot for a 60-minute request,
and the degenerate recommendation is returned. -/
theorem C9_no_capacity_witness :
    recommend_slot ⟨7, 23, 10, 10, 3/10, 3/10, 1/5, 1/5, 0⟩
      [⟨⟨"c", 420, 1380, "m", "", []⟩, .work, .regular⟩] none
      ⟨"new", 60, none, .regular, none⟩ 400 1 3 =
      some ⟨⟨(400, 400), 0, ["Не найдено свободных слотов"]⟩, [],
        ["Календарь полностью занят"], 0⟩ :=
  C9_no_capacity ⟨7, 23, 10, 10, 3/10, 3/10, 1/5, 1/5, 0⟩
    [⟨⟨"c", 420, 1380, "m", "", []⟩, .work, .regular⟩] none
    ⟨"new", 60, none, .regular, none⟩ 400 1 3 (by decide)

/-! ### ContentAddressedCache key (`app/services/fs_cache.py`, claim C4)

`compute_cache_key(ics_content, params)` (lines 107–122) builds
`json.dumps({"v": PIPELINE_VERSION, "ics": sha256(ics).hexdigest(),
"params": {...}}, sort_keys=True, ensure_ascii=False)` and returns the
first 32 hex characters of its sha256.  The serialized JSON is modelled
character-exactly (sorted keys, `", "`/`": "` separators, `json.dumps`
string escaping); the sha256 hex digest itself is the abstract parameter
`sha256`. -/

/-- Parameters of `compute_cache_key` as read with `params.get`. -/
structure CacheParams where
  timezone : String
  expand_recurring : Bool
  horizon_days : Option Int
  days_limit : Option Int
  use_llm : Bool
  deriving Repr, DecidableEq

/-- The normalized parameter record: `int(x or 0)` turns an absent count
into 0, booleans are passed through `bool`. -/
structure NormalizedParams where
  timezone : String
  expand_recurring : Bool
  horizon_days : Int
  days_limit : Int
  use_llm : Bool
  deriving Repr, DecidableEq

/-- The `params` normalization inside `compute_cache_key`. -/
def normalizeParams (p : CacheParams) : NormalizedParams :=
  ⟨p.timezone, p.expand_recurring, p.horizon_days.getD 0,
    p.days_limit.getD 0, p.use_llm⟩

/-- Lower-case hexadecimal digit. -/
def hexDigit (n : Nat) : Char :=
  if n < 10 then Char.ofNat (48 + n) else Char.ofNat (87 + n)

/-- Four-digit hexadecimal rendering for `\u` escapes. -/
def hex4 (n : Nat) : String :=
  ⟨[hexDigit (n / 4096 % 16), hexDigit (n / 256 % 16), hexDigit (n / 16 % 16),
    hexDigit (n % 16)]⟩

/-- `json.dumps` escaping of one character (`ensure_ascii=False`). -/
def jsonEscapeChar (c : Char) : String :=
  if c = '"' then "\\\""
  else if c = '\\' then "\\\\"
  else if c = '\n' then "\\n"
  else if c = '\r' then "\\r"
  else if c = '\t' then "\\t"
  else if c = Char.ofNat 8 then "\\b"
  else if c = Char.ofNat 12 then "\\f"
  else if c.toNat < 32 then "\\u" ++ hex4 c.toNat
  else String.singleton c

/-- `json.dumps` escaping of a string body. -/
def jsonEscape (s : String) : String :=
  String.join (s.data.map jsonEscapeChar)

/-- A string that `json.dumps` escaping leaves unchanged (every version
string and timezone name in the repository is of this form). -/
def jsonPlain (s : String) : Prop := jsonEscape s = s

/-- A JSON string literal. -/
def jsonStr (s : String) : String := "\"" ++ jsonEscape s ++ "\""

/-- Python `json.dumps` of a boolean. -/
def jsonBool (b : Bool) : String := if b then "true" else "false"

/-- The `"params"` object, keys sorted (`days_limit` < `expand_recurring`
< `horizon_days` < `timezone` < `use_llm`). -/
def serializeParams (np : NormalizedParams) : String :=
  "\x7b\"days_limit\": " ++ toString np.days_limit ++
    ", \"expand_recurring\": " ++ jsonBool np.expand_recurring ++
    ", \"horizon_days\": " ++ toString np.horizon_days ++
    ", \"timezone\": " ++ jsonStr np.timezone ++
    ", \"use_llm\": " ++ jsonBool np.use_llm ++ "\x7d"

/-- The serialized payload up to (and including) the opening quote of the
`"v"` value — everything before the version matters only through the ICS
digest and the normalized parameters. -/
def serializeFront (ics_hash : String) (np : NormalizedParams) : String :=
  "\x7b\"ics\": " ++ jsonStr ics_hash ++ ", \"params\": " ++
    serializeParams np ++ ", \"v\": \""

/-- `json.dumps(payload, sort_keys=True, ensure_ascii=False)` of the
payload (keys `ics` < `params` < `v`), with the version literal split off
so that the `"v"` field is syntactically last. -/
def serializePayload (version ics_hash : String) (np : NormalizedParams) :
    String :=
  serializeFront ics_hash np ++ jsonEscape version ++ "\"\x7d"

instance (s : String) : Decidable (jsonPlain s) := by
  unfold jsonPlain
  infer_instance

/-- `compute_cache_key`: first 32 hex characters of the sha256 hex digest
of the serialized payload, with the raw ICS text entering only through its
own sha256 hex digest. -/
def compute_cache_key (sha256 : String → String) (version : String)
    (ics_content : String) (p : CacheParams) : String :=
  (sha256 (serializePayload version (sha256 ics_content)
    (normalizeParams p))).take 32

/-- C4: the cache key is a deterministic hash over
`(pipelineVersion, sha256(rawInputText), normalizedParams)` — two calls
whose raw input has the same digest and whose parameters normalize
identically get the same key; and for two distinct (escape-free) pipeline
versions the serialized payloads are distinct, so that any digest that
does not collide on those two payloads (after the 32-character truncation)
yields distinct keys, invalidating all prior entries by construction. -/
theorem C4_cache_key (sha256 : String → String) (version : String)
    (ics1 ics2 : String) (p1 p2 : CacheParams)
    (hics : sha256 ics1 = sha256 ics2)
    (hp : normalizeParams p1 = normalizeParams p2) :
    compute_cache_key sha256 version ics1 p1 =
      compute_cache_key sha256 version ics2 p2 ∧
    ∀ v2 : String, jsonPlain version → jsonPlain v2 → version ≠ v2 →
      serializePayload version (sha256 ics1) (normalizeParams p1) ≠
        serializePayload v2 (sha256 ics1) (normalizeParams p1) ∧
      (Set.InjOn (fun s => (sha256 s).take 32)
          {serializePayload version (sha256 ics1) (normalizeParams p1),
            serializePayload v2 (sha256 ics1) (normalizeParams p1)} →
        compute_cache_key sha256 version ics1 p1 ≠
          compute_cache_key sha256 v2 ics1 p1) := by
  constructor
  · unfold compute_cache_key
    rw [hics, hp]
  · intro v2 hpl1 hpl2 hne
    have hser : serializePayload version (sha256 ics1) (normalizeParams p1) ≠
        serializePayload v2 (sha256 ics1) (normalizeParams p1) := by
      intro heq
      apply hne
      have h2 := congrArg String.data heq
      simp only [serializePayload, String.data_append, List.append_assoc]
        at h2
      have h3 := List.append_cancel_left h2
      have h4 := List.append_cancel_right h3
      have h6 : jsonEscape version = jsonEscape v2 := congrArg String.mk h4
      rw [hpl1, hpl2] at h6
      exact h6
    refine ⟨hser, ?_⟩
    intro hinj heqkey
    apply hser
    apply hinj (Set.mem_insert _ _) (Set.mem_insert_of_mem _ rfl)
    exact heqkey

set_option maxRecDepth 100000 in
set_option maxHeartbeats 1000000 in
/-- C4 witness: the theorem at concrete input, with the digest
instantiated by string reversal (which is injective after the
32-character truncation on the two concrete payloads, since they differ
near their end). -/
theorem C4_cache_key_witness :
    compute_cache_key (fun s => String.mk s.data.reverse) "2025-08-14"
        "BEGIN:VCALENDAR" ⟨"UTC", true, some 30, some 14, true⟩ =
      compute_cache_key (fun s => String.mk s.data.reverse) "2025-08-14"
        "BEGIN:VCALENDAR" ⟨"UTC", true, some 30, some 14, true⟩ ∧
    serializePayload "2025-08-14"
        ((fun s => String.mk s.data.reverse) "BEGIN:VCALENDAR")
        (normalizeParams ⟨"UTC", true, some 30, some 14, true⟩) ≠
      serializePayload "2025-08-15"
        ((fun s => String.mk s.data.reverse) "BEGIN:VCALENDAR")
        (normalizeParams ⟨"UTC", true, some 30, some 14, true⟩) ∧
    compute_cache_key (fun s => String.mk s.data.reverse) "2025-08-14"
        "BEGIN:VCALENDAR" ⟨"UTC", true, some 30, some 14, true⟩ ≠
      compute_cache_key (fun s => String.mk s.data.reverse) "2025-08-15"
        "BEGIN:VCALENDAR" ⟨"UTC", true, some 30, some 14, true⟩ := by
  have h := C4_cache_key (fun s => String.mk s.data.reverse) "2025-08-14"
    "BEGIN:VCALENDAR" "BEGIN:VCALENDAR"
    ⟨"UTC", true, some 30, some 14, true⟩
    ⟨"UTC", true, some 30, some 14, true⟩ rfl rfl
  have h2 := h.2 "2025-08-15" (by decide) (by decide) (by decide)
  refine ⟨h.1, h2.1, h2.2 ?_⟩
  intro x hx y hy hxy
  simp only [Set.mem_insert_iff, Set.mem_singleton_iff] at hx hy
  rcases hx with rfl | rfl <;> rcases hy with rfl | rfl
  · rfl
  · exact absurd hxy (by decide)
  · exact absurd hxy (by decide)
  · rfl

end CalendarSpec
